import Mathlib

/-!
Shallow embedding of the `PriorityQueue` class (an array-backed binary heap
with a configurable comparator) and proofs of its specification claims.

The mutable `this.heap : T[]` field is modelled as an explicit `List α` that
every operation takes and returns; a method's JavaScript return value is
paired with the post-state.  The two `while` loops (`bubbleUp`, `bubbleDown`)
and the drain loop of `toSortedArray` are modelled with an explicit fuel
argument that the wrappers instantiate with a provably sufficient bound, so
that every definition computes by kernel reduction.
-/

namespace PQ

variable {α : Type} [Inhabited α]

/-- The default comparator for `type = "min"`: `(a, b) => a - b`. -/
def minCmp (a b : Int) : Int := a - b

/-- The default comparator for `type = "max"`: `(a, b) => b - a`. -/
def maxCmp (a b : Int) : Int := b - a

/-- Array read `this.heap[i]`; every use in the source is in bounds. -/
def idx (h : List α) (i : Nat) : α := h.getD i default

/-- `get size()` — `this.heap.length`. -/
def size (h : List α) : Nat := h.length

/-- `isEmpty()` — `this.heap.length === 0`. -/
def isEmpty (h : List α) : Bool := h.length == 0

/-- `swap(i, j)` — destructuring swap of two slots (both reads happen first). -/
def swap (h : List α) (i j : Nat) : List α :=
  (h.set i (idx h j)).set j (idx h i)

/-- `getParentIndex(index)` — `Math.floor((index - 1) / 2)`, which is `-1`
at `index = 0`, hence the `Int` result and floor division. -/
def getParentIndex (index : Nat) : Int := ((index : Int) - 1).fdiv 2

/-- `getLeftChildIndex(index)` — `2 * index + 1`. -/
def getLeftChildIndex (index : Nat) : Nat := 2 * index + 1

/-- `getRightChildIndex(index)` — `2 * index + 2`. -/
def getRightChildIndex (index : Nat) : Nat := 2 * index + 2

/-- Loop body iteration of `bubbleUp(index)`.  In the loop `index > 0`, so
`getParentIndex index = (index - 1) / 2` as a natural number.  Each pass
strictly decreases `index`, so `index` itself is sufficient fuel. -/
def bubbleUpGo (cmp : α → α → Int) : Nat → List α → Nat → List α
  | 0, h, _ => h
  | fuel + 1, h, index =>
    if 0 < index then
      let parentIdx := (index - 1) / 2
      if cmp (idx h index) (idx h parentIdx) < 0 then
        bubbleUpGo cmp fuel (swap h index parentIdx) parentIdx
      else h
    else h

/-- `bubbleUp(index)`. -/
def bubbleUp (cmp : α → α → Int) (h : List α) (index : Nat) : List α :=
  bubbleUpGo cmp index h index

/-- One target-selection step of the `bubbleDown` loop body: `targetIdx`
starts at `index`, moves to `leftIdx` if that child exists and outranks it,
then to `rightIdx` if that child exists and outranks the current target. -/
def bdTarget (cmp : α → α → Int) (h : List α) (index : Nat) : Nat :=
  let length := h.length
  let leftIdx := getLeftChildIndex index
  let rightIdx := getRightChildIndex index
  let t1 :=
    if leftIdx < length ∧ cmp (idx h leftIdx) (idx h index) < 0 then leftIdx
    else index
  if rightIdx < length ∧ cmp (idx h rightIdx) (idx h t1) < 0 then rightIdx
  else t1

/-- Loop of `bubbleDown(index)`: stop when the target is the index itself,
else swap and continue from the target.  The target is always a child of
`index`, so `h.length - index` shrinks and `h.length` is sufficient fuel. -/
def bubbleDownGo (cmp : α → α → Int) : Nat → List α → Nat → List α
  | 0, h, _ => h
  | fuel + 1, h, index =>
    let targetIdx := bdTarget cmp h index
    if targetIdx = index then h
    else bubbleDownGo cmp fuel (swap h index targetIdx) targetIdx

/-- `bubbleDown(index)`. -/
def bubbleDown (cmp : α → α → Int) (h : List α) (index : Nat) : List α :=
  bubbleDownGo cmp h.length h index

/-- The `heapify()` loop `for (i = floor(n/2) - 1; i >= 0; i--) bubbleDown(i)`,
unrolled from the upper bound: `heapifyFrom h (k+1)` sinks index `k` and
recurses, so `heapifyFrom h (n/2)` performs exactly the source's iteration. -/
def heapifyFrom (cmp : α → α → Int) : List α → Nat → List α
  | h, 0 => h
  | h, i + 1 => heapifyFrom cmp (bubbleDown cmp h i) i

/-- `heapify()`. -/
def heapify (cmp : α → α → Int) (h : List α) : List α :=
  heapifyFrom cmp h (h.length / 2)

/-- The constructor: `heap = []`; if `initialValues` is present and nonempty,
copy it and run one `heapify()` pass. -/
def mkQueue (cmp : α → α → Int) (initialValues : List α) : List α :=
  if 0 < initialValues.length then heapify cmp initialValues else []

/-- `push(value)` — append, bubble up from the last slot, return the new
length together with the post-state. -/
def push (cmp : α → α → Int) (h : List α) (value : α) : Nat × List α :=
  let h1 := h ++ [value]
  let h2 := bubbleUp cmp h1 (h1.length - 1)
  (h2.length, h2)

/-- `pop()` — `undefined` on empty; on one element drop it; otherwise move
the last element into the root slot, shrink, and bubble down from the root. -/
def pop (cmp : α → α → Int) (h : List α) : Option α × List α :=
  match h with
  | [] => (none, [])
  | [x] => (some x, [])
  | x :: y :: rest =>
    let lastVal := (x :: y :: rest).getLastD default
    let h1 := ((x :: y :: rest).dropLast).set 0 lastVal
    (some x, bubbleDown cmp h1 0)

/-- `peek()` — `this.heap[0]`, `undefined` when empty. -/
def peek (h : List α) : Option α := h[0]?

/-- `clear()` — `this.heap = []`. -/
def clear : List α := ([] : List α)

/-- `toArray()` — a copy of the internal array. -/
def toArray (h : List α) : List α := h

/-- The drain loop of `toSortedArray`: `while (heap.length > 0)
sorted.push(pop())`.  `pop` shrinks a nonempty heap, so `h.length` is
sufficient fuel. -/
def drainGo (cmp : α → α → Int) : Nat → List α → List α
  | 0, _ => []
  | fuel + 1, h =>
    match pop cmp h with
    | (none, _) => []
    | (some t, h2) => t :: drainGo cmp fuel h2

/-- The value sequence produced by repeatedly popping until empty. -/
def drain (cmp : α → α → Int) (h : List α) : List α := drainGo cmp h.length h

/-- `toSortedArray()` — copy the backing array, drain via `pop`, then restore
`this.heap = tempHeap`; returns the sorted list with the post-state. -/
def toSortedArray (cmp : α → α → Int) (h : List α) : List α × List α :=
  let tempHeap := h
  let sorted := drain cmp h
  (sorted, tempHeap)

/-- `contains(value)` — `this.heap.includes(value)`. -/
def contains [DecidableEq α] (h : List α) (value : α) : Bool := h.contains value

/-- `remove(value)` — first occurrence by value equality; not found returns
`false` with the state untouched; found at the last slot just drops it;
otherwise overwrite the slot with the popped last element and run exactly one
corrective pass (up if the moved-in element outranks its parent, else down). -/
def remove [DecidableEq α] (cmp : α → α → Int) (h : List α) (value : α) :
    Bool × List α :=
  match h.findIdx? (fun x => x == value) with
  | none => (false, h)
  | some index =>
    if index = h.length - 1 then (true, h.dropLast)
    else
      let h1 := (h.dropLast).set index (h.getLastD default)
      if 0 ≤ getParentIndex index ∧
          cmp (idx h1 index) (idx h1 (getParentIndex index).toNat) < 0 then
        (true, bubbleUp cmp h1 index)
      else (true, bubbleDown cmp h1 index)

/-- `replace(value)` — on empty push the value and return `undefined`; else
write `value` into the root slot, bubble down, and return the old root. -/
def replace (cmp : α → α → Int) (h : List α) (value : α) : Option α × List α :=
  if isEmpty h then (none, (push cmp h value).2)
  else (some (idx h 0), bubbleDown cmp (h.set 0 value) 0)

/-- `pushPop(value)` — return `value` with no mutation when the heap is empty
or `value` outranks the top; otherwise `replace(value)!`. -/
def pushPop (cmp : α → α → Int) (h : List α) (value : α) : α × List α :=
  if isEmpty h ∨ cmp value (idx h 0) < 0 then (value, h)
  else
    let r := replace cmp h value
    (r.1.getD default, r.2)

/-- `merge(other)` — append every element of `other` in its enumeration
(internal array) order onto this heap's backing array, then `heapify()`. -/
def merge (cmp : α → α → Int) (h other : List α) : List α :=
  heapify cmp (h ++ other)

/-- The heap-property region used by Floyd's construction: every parent/child
edge whose parent index is at least `b` is ordered. -/
def HeapFrom (cmp : α → α → Int) (h : List α) (b : Nat) : Prop :=
  ∀ c, c < h.length → 0 < c → b ≤ (c - 1) / 2 →
    cmp (idx h ((c - 1) / 2)) (idx h c) ≤ 0

/-- The heap-property invariant: every parent/child edge is ordered. -/
def IsHeap (cmp : α → α → Int) (h : List α) : Prop := HeapFrom cmp h 0

instance (cmp : α → α → Int) (h : List α) (b : Nat) :
    Decidable (HeapFrom cmp h b) :=
  inferInstanceAs (Decidable (∀ c, c < h.length → 0 < c → b ≤ (c - 1) / 2 →
    cmp (idx h ((c - 1) / 2)) (idx h c) ≤ 0))

instance (cmp : α → α → Int) (h : List α) : Decidable (IsHeap cmp h) :=
  inferInstanceAs (Decidable (HeapFrom cmp h 0))

/-- The comparator contract of the spec: a total-order-like comparison
returning negative/zero/positive.  These four consequences are what the
heap proofs use; both default comparators satisfy them. -/
structure LawfulCmp (cmp : α → α → Int) : Prop where
  cle_refl : ∀ a, cmp a a ≤ 0
  cle_trans : ∀ a b c, cmp a b ≤ 0 → cmp b c ≤ 0 → cmp a c ≤ 0
  cle_flip : ∀ a b, 0 ≤ cmp a b → cmp b a ≤ 0
  cge_flip : ∀ a b, cmp a b ≤ 0 → 0 ≤ cmp b a

/-- Heap states reachable through the public mutating API. -/
inductive Reachable [DecidableEq α] (cmp : α → α → Int) : List α → Prop
  | mkQ (init : List α) : Reachable cmp (mkQueue cmp init)
  | pushR (h : List α) (v : α) : Reachable cmp h → Reachable cmp (push cmp h v).2
  | popR (h : List α) : Reachable cmp h → Reachable cmp (pop cmp h).2
  | removeR (h : List α) (v : α) :
      Reachable cmp h → Reachable cmp (remove cmp h v).2
  | replaceR (h : List α) (v : α) :
      Reachable cmp h → Reachable cmp (replace cmp h v).2
  | pushPopR (h : List α) (v : α) :
      Reachable cmp h → Reachable cmp (pushPop cmp h v).2
  | mergeR (h other : List α) :
      Reachable cmp h → Reachable cmp (merge cmp h other)
  | clearR (h : List α) : Reachable cmp h → Reachable cmp (clear : List α)

theorem lawful_minCmp : LawfulCmp minCmp := by
  refine ⟨?_, ?_, ?_, ?_⟩ <;> (intros; simp only [minCmp] at *; omega)

theorem lawful_maxCmp : LawfulCmp maxCmp := by
  refine ⟨?_, ?_, ?_, ?_⟩ <;> (intros; simp only [maxCmp] at *; omega)

/-! ### Basic index and length lemmas -/

theorem idx_eq_getElem (h : List α) (i : Nat) (hi : i < h.length) :
    idx h i = h[i] := by
  rw [idx, List.getD_eq_getElem?_getD, List.getElem?_eq_getElem hi]; rfl

theorem idx_set_self (h : List α) (i : Nat) (a : α) (hi : i < h.length) :
    idx (h.set i a) i = a := by
  rw [idx, List.getD_eq_getElem?_getD, List.getElem?_set_self hi]; rfl

theorem idx_set_ne (h : List α) (i j : Nat) (a : α) (hij : i ≠ j) :
    idx (h.set i a) j = idx h j := by
  rw [idx, idx, List.getD_eq_getElem?_getD, List.getD_eq_getElem?_getD,
    List.getElem?_set_ne hij]

theorem set_idx_self (h : List α) (i : Nat) (hi : i < h.length) :
    h.set i (idx h i) = h := by
  apply List.ext_getElem?
  intro n
  rw [List.getElem?_set]
  split_ifs with hin
  · subst hin
    rw [List.getElem?_eq_getElem hi, idx_eq_getElem h _ hi]
  · rfl

theorem length_swap (h : List α) (i j : Nat) : (swap h i j).length = h.length := by
  simp [swap]

theorem swap_self (h : List α) (i : Nat) (hi : i < h.length) :
    swap h i i = h := by
  rw [swap, set_idx_self h i hi, set_idx_self h i hi]

theorem idx_swap_fst (h : List α) (i j : Nat) (hi : i < h.length)
    (hj : j < h.length) : idx (swap h i j) i = idx h j := by
  rcases eq_or_ne i j with rfl | hij
  · rw [swap_self h i hi]
  · rw [swap, idx_set_ne _ _ _ _ (Ne.symm hij), idx_set_self _ _ _ hi]

theorem idx_swap_snd (h : List α) (i j : Nat) (hj : j < h.length) :
    idx (swap h i j) j = idx h i := by
  rw [swap, idx_set_self]
  simpa using hj

theorem idx_swap_other (h : List α) (i j k : Nat) (hki : k ≠ i) (hkj : k ≠ j) :
    idx (swap h i j) k = idx h k := by
  rw [swap, idx_set_ne _ _ _ _ (Ne.symm hkj), idx_set_ne _ _ _ _ (Ne.symm hki)]

theorem swap_perm [DecidableEq α] (h : List α) (i j : Nat)
    (hi : i < h.length) (hj : j < h.length) : (swap h i j).Perm h := by
  rcases eq_or_ne i j with rfl | hij
  · rw [swap_self h i hi]
  · rw [List.perm_iff_count]
    intro b
    have hj2 : j < (h.set i (idx h j)).length := by simpa using hj
    rw [swap, List.count_set _ _ _ _ hj2, List.count_set _ _ _ _ hi,
      List.getElem_set_ne hij hj2]
    simp only [idx_eq_getElem h i hi, idx_eq_getElem h j hj]
    have hci : (h[i] == b) = true → 1 ≤ List.count b h := by
      intro hb
      exact List.count_pos_iff.mpr (beq_iff_eq.mp hb ▸ List.getElem_mem hi)
    have hcj : (h[j] == b) = true → 1 ≤ List.count b h := by
      intro hb
      exact List.count_pos_iff.mpr (beq_iff_eq.mp hb ▸ List.getElem_mem hj)
    by_cases h1 : (h[i] == b) = true <;> by_cases h2 : (h[j] == b) = true
    · have := hci h1
      rw [if_pos h1, if_pos h2]; omega
    · have := hci h1
      rw [if_pos h1, if_neg h2]; omega
    · have := hcj h2
      rw [if_neg h1, if_pos h2]; omega
    · rw [if_neg h1, if_neg h2]; omega

theorem idx_append_left (h l : List α) (i : Nat) (hi : i < h.length) :
    idx (h ++ l) i = idx h i := by
  rw [idx, idx, List.getD_eq_getElem?_getD, List.getD_eq_getElem?_getD,
    List.getElem?_append_left hi]

theorem idx_append_last (h : List α) (v : α) :
    idx (h ++ [v]) h.length = v := by
  rw [idx, List.getD_eq_getElem?_getD, List.getElem?_append_right (Nat.le_refl _)]
  simp

theorem idx_dropLast (h : List α) (i : Nat) (hi : i < h.length - 1) :
    idx h.dropLast i = idx h i := by
  rw [idx, idx, List.getD_eq_getElem?_getD, List.getD_eq_getElem?_getD,
    List.getElem?_dropLast, if_pos hi]

theorem getLastD_eq_idx (h : List α) (_hne : h ≠ []) :
    h.getLastD default = idx h (h.length - 1) := by
  rw [List.getLastD_eq_getLast?, List.getLast?_eq_getElem?, idx,
    List.getD_eq_getElem?_getD]

theorem getParentIndex_zero : getParentIndex 0 = -1 := by decide

theorem getParentIndex_pos (i : Nat) (hi : 0 < i) :
    getParentIndex i = ((i - 1) / 2 : Nat) := by
  have h1 : ((i : Int) - 1) = ((i - 1 : Nat) : Int) := by omega
  rw [getParentIndex, h1, Int.fdiv_eq_ediv _ (by omega)]
  omega

theorem getParentIndex_nonneg_iff (i : Nat) : 0 ≤ getParentIndex i ↔ 0 < i := by
  rcases Nat.eq_zero_or_pos i with rfl | hi
  · rw [getParentIndex_zero]; omega
  · rw [getParentIndex_pos i hi]
    constructor
    · intro _; exact hi
    · intro _; exact Int.ofNat_nonneg _

theorem getParentIndex_toNat (i : Nat) (hi : 0 < i) :
    (getParentIndex i).toNat = (i - 1) / 2 := by
  rw [getParentIndex_pos i hi]; rfl

/-! ### Length and permutation preservation for the loops -/

theorem length_bubbleUpGo (cmp : α → α → Int) (fuel : Nat) (h : List α)
    (i : Nat) : (bubbleUpGo cmp fuel h i).length = h.length := by
  induction fuel generalizing h i with
  | zero => rfl
  | succ f ih =>
    rw [bubbleUpGo]
    split
    · simp only []
      split
      · rw [ih, length_swap]
      · rfl
    · rfl

theorem length_bubbleUp (cmp : α → α → Int) (h : List α) (i : Nat) :
    (bubbleUp cmp h i).length = h.length := length_bubbleUpGo cmp i h i

theorem bubbleUpGo_perm [DecidableEq α] (cmp : α → α → Int) (fuel : Nat)
    (h : List α) (i : Nat) (hi : i < h.length) :
    (bubbleUpGo cmp fuel h i).Perm h := by
  induction fuel generalizing h i with
  | zero => exact List.Perm.refl h
  | succ f ih =>
    rw [bubbleUpGo]
    split
    · next hpos =>
      simp only []
      split
      · refine (ih _ _ ?_).trans (swap_perm h i ((i - 1) / 2) hi ?_)
        · rw [length_swap]; omega
        · omega
      · exact List.Perm.refl h
    · exact List.Perm.refl h

theorem bubbleUp_perm [DecidableEq α] (cmp : α → α → Int) (h : List α)
    (i : Nat) (hi : i < h.length) : (bubbleUp cmp h i).Perm h :=
  bubbleUpGo_perm cmp i h i hi

theorem bdTarget_eq_self_or (cmp : α → α → Int) (h : List α) (i : Nat) :
    bdTarget cmp h i = i ∨
      (i < bdTarget cmp h i ∧ bdTarget cmp h i < h.length ∧
        (bdTarget cmp h i = 2 * i + 1 ∨ bdTarget cmp h i = 2 * i + 2)) := by
  have hdef : bdTarget cmp h i =
      (if 2 * i + 2 < h.length ∧
          cmp (idx h (2 * i + 2))
            (idx h (if 2 * i + 1 < h.length ∧ cmp (idx h (2 * i + 1)) (idx h i) < 0
              then 2 * i + 1 else i)) < 0 then 2 * i + 2
        else if 2 * i + 1 < h.length ∧ cmp (idx h (2 * i + 1)) (idx h i) < 0
          then 2 * i + 1 else i) := rfl
  rw [hdef]
  by_cases hc1 : 2 * i + 1 < h.length ∧ cmp (idx h (2 * i + 1)) (idx h i) < 0
  · rw [if_pos hc1]
    by_cases hc2 : 2 * i + 2 < h.length ∧
        cmp (idx h (2 * i + 2)) (idx h (2 * i + 1)) < 0
    · rw [if_pos hc2]; right; refine ⟨by omega, hc2.1, Or.inr rfl⟩
    · rw [if_neg hc2]; right; exact ⟨by omega, hc1.1, Or.inl rfl⟩
  · rw [if_neg hc1]
    by_cases hc2 : 2 * i + 2 < h.length ∧ cmp (idx h (2 * i + 2)) (idx h i) < 0
    · rw [if_pos hc2]; right; exact ⟨by omega, hc2.1, Or.inr rfl⟩
    · rw [if_neg hc2]; left; rfl

theorem length_bubbleDownGo (cmp : α → α → Int) (fuel : Nat) (h : List α)
    (i : Nat) : (bubbleDownGo cmp fuel h i).length = h.length := by
  induction fuel generalizing h i with
  | zero => rfl
  | succ f ih =>
    rw [bubbleDownGo]
    split
    · rfl
    · rw [ih, length_swap]

theorem length_bubbleDown (cmp : α → α → Int) (h : List α) (i : Nat) :
    (bubbleDown cmp h i).length = h.length := length_bubbleDownGo cmp h.length h i

theorem bubbleDownGo_perm [DecidableEq α] (cmp : α → α → Int) (fuel : Nat)
    (h : List α) (i : Nat) : (bubbleDownGo cmp fuel h i).Perm h := by
  induction fuel generalizing h i with
  | zero => exact List.Perm.refl h
  | succ f ih =>
    rw [bubbleDownGo]
    split
    · exact List.Perm.refl h
    · next hne =>
      rcases bdTarget_eq_self_or cmp h i with heq | ⟨h1, h2, _⟩
      · exact absurd heq hne
      · exact (ih _ _).trans (swap_perm h i _ (by omega) h2)

theorem bubbleDown_perm [DecidableEq α] (cmp : α → α → Int) (h : List α)
    (i : Nat) : (bubbleDown cmp h i).Perm h :=
  bubbleDownGo_perm cmp h.length h i

/-! ### The sift-up master lemma

Invariant: every parent/child edge is ordered except possibly the edge into
the hole `j`, and the children of `j` are already bounded by the parent of
`j` (so the parent may move down into the hole). -/

theorem bubbleUpGo_heapFrom (cmp : α → α → Int) (L : LawfulCmp cmp)
    (fuel : Nat) : ∀ (h : List α) (j : Nat), j ≤ fuel → j < h.length →
    (∀ c, c < h.length → 0 < c → c ≠ j →
      cmp (idx h ((c - 1) / 2)) (idx h c) ≤ 0) →
    (∀ c, c < h.length → 0 < c → (c - 1) / 2 = j → 0 < j →
      cmp (idx h ((j - 1) / 2)) (idx h c) ≤ 0) →
    IsHeap cmp (bubbleUpGo cmp fuel h j) := by
  induction fuel with
  | zero =>
    intro h j hfuel _ hps _ c hc hc0 _
    exact hps c hc hc0 (by omega)
  | succ f ih =>
    intro h j hfuel hj hps hch
    rw [bubbleUpGo]
    split
    · next hpos =>
      simp only []
      split
      · next hswap =>
        have hplt : (j - 1) / 2 < j := by omega
        have hpl : (j - 1) / 2 < h.length := by omega
        apply ih (swap h j ((j - 1) / 2)) ((j - 1) / 2) (by omega)
          (by rw [length_swap]; omega)
        · intro c hc hc0 hcp
          rw [length_swap] at hc
          by_cases hcj : c = j
          · subst hcj
            have hq : (c - 1) / 2 = (c - 1) / 2 := rfl
            rw [idx_swap_snd h c ((c - 1) / 2) hpl,
              idx_swap_fst h c ((c - 1) / 2) hj hpl]
            exact le_of_lt hswap
          · rw [idx_swap_other h j ((j - 1) / 2) c hcj hcp]
            by_cases hqj : (c - 1) / 2 = j
            · rw [hqj, idx_swap_fst h j ((j - 1) / 2) hj hpl]
              exact hch c hc hc0 hqj hpos
            · by_cases hqp : (c - 1) / 2 = (j - 1) / 2
              · rw [hqp, idx_swap_snd h j ((j - 1) / 2) hpl]
                have h1 := hps c hc hc0 hcj
                rw [hqp] at h1
                exact L.cle_trans _ _ _ (le_of_lt hswap) h1
              · rw [idx_swap_other h j ((j - 1) / 2) ((c - 1) / 2) hqj hqp]
                exact hps c hc hc0 hcj
        · intro c hc hc0 hcpar hppos
          rw [length_swap] at hc
          have hgj : ((j - 1) / 2 - 1) / 2 ≠ j := by omega
          have hgp : ((j - 1) / 2 - 1) / 2 ≠ (j - 1) / 2 := by omega
          rw [idx_swap_other h j ((j - 1) / 2) _ hgj hgp]
          have hedge : cmp (idx h (((j - 1) / 2 - 1) / 2)) (idx h ((j - 1) / 2)) ≤ 0 :=
            hps ((j - 1) / 2) hpl hppos (by omega)
          by_cases hcj : c = j
          · subst hcj
            rw [idx_swap_fst h c ((c - 1) / 2) hj hpl]
            exact hedge
          · have hcp : c ≠ (j - 1) / 2 := by omega
            rw [idx_swap_other h j ((j - 1) / 2) c hcj hcp]
            refine L.cle_trans _ _ _ hedge ?_
            have h1 := hps c hc hc0 hcj
            rw [hcpar] at h1
            exact h1
      · next hnsw =>
        intro c hc hc0 _
        by_cases hcj : c = j
        · subst hcj
          exact L.cle_flip _ _ (by omega)
        · exact hps c hc hc0 hcj
    · next hnpos =>
      intro c hc hc0 _
      exact hps c hc hc0 (by omega)

theorem bubbleUp_heapFrom (cmp : α → α → Int) (L : LawfulCmp cmp)
    (h : List α) (j : Nat) (hj : j < h.length)
    (hps : ∀ c, c < h.length → 0 < c → c ≠ j →
      cmp (idx h ((c - 1) / 2)) (idx h c) ≤ 0)
    (hch : ∀ c, c < h.length → 0 < c → (c - 1) / 2 = j → 0 < j →
      cmp (idx h ((j - 1) / 2)) (idx h c) ≤ 0) :
    IsHeap cmp (bubbleUp cmp h j) :=
  bubbleUpGo_heapFrom cmp L j h j (Nat.le_refl j) hj hps hch

/-! ### The sift-down master lemma -/

/-- When the target of a `bubbleDown` step is the index itself, neither
existing child outranks it. -/
theorem bdTarget_self_conds (cmp : α → α → Int) (h : List α) (j : Nat)
    (heq : bdTarget cmp h j = j) :
    (2 * j + 1 < h.length → 0 ≤ cmp (idx h (2 * j + 1)) (idx h j)) ∧
    (2 * j + 2 < h.length → 0 ≤ cmp (idx h (2 * j + 2)) (idx h j)) := by
  have hdef : bdTarget cmp h j =
      (if 2 * j + 2 < h.length ∧
          cmp (idx h (2 * j + 2))
            (idx h (if 2 * j + 1 < h.length ∧ cmp (idx h (2 * j + 1)) (idx h j) < 0
              then 2 * j + 1 else j)) < 0 then 2 * j + 2
        else if 2 * j + 1 < h.length ∧ cmp (idx h (2 * j + 1)) (idx h j) < 0
          then 2 * j + 1 else j) := rfl
  rw [hdef] at heq
  by_cases hc1 : 2 * j + 1 < h.length ∧ cmp (idx h (2 * j + 1)) (idx h j) < 0
  · rw [if_pos hc1] at heq
    split at heq <;> omega
  · rw [if_neg hc1] at heq
    by_cases hc2 : 2 * j + 2 < h.length ∧ cmp (idx h (2 * j + 2)) (idx h j) < 0
    · rw [if_pos hc2] at heq; omega
    · constructor
      · intro hl
        by_contra hlt
        exact hc1 ⟨hl, by omega⟩
      · intro hr
        by_contra hlt
        exact hc2 ⟨hr, by omega⟩

/-- When the target of a `bubbleDown` step moves, the element at the target
fits below the hole's old element and below the sibling child. -/
theorem bdTarget_move_conds (cmp : α → α → Int) (L : LawfulCmp cmp)
    (h : List α) (j : Nat) (hne : bdTarget cmp h j ≠ j) :
    cmp (idx h (bdTarget cmp h j)) (idx h j) ≤ 0 ∧
    (∀ s, (s = 2 * j + 1 ∨ s = 2 * j + 2) → s < h.length →
      s ≠ bdTarget cmp h j → cmp (idx h (bdTarget cmp h j)) (idx h s) ≤ 0) := by
  have hdef : bdTarget cmp h j =
      (if 2 * j + 2 < h.length ∧
          cmp (idx h (2 * j + 2))
            (idx h (if 2 * j + 1 < h.length ∧ cmp (idx h (2 * j + 1)) (idx h j) < 0
              then 2 * j + 1 else j)) < 0 then 2 * j + 2
        else if 2 * j + 1 < h.length ∧ cmp (idx h (2 * j + 1)) (idx h j) < 0
          then 2 * j + 1 else j) := rfl
  rw [hdef] at hne ⊢
  by_cases hc1 : 2 * j + 1 < h.length ∧ cmp (idx h (2 * j + 1)) (idx h j) < 0
  · rw [if_pos hc1] at hne ⊢
    by_cases hc2 : 2 * j + 2 < h.length ∧
        cmp (idx h (2 * j + 2)) (idx h (2 * j + 1)) < 0
    · rw [if_pos hc2] at hne ⊢
      refine ⟨L.cle_trans _ _ _ (le_of_lt hc2.2) (le_of_lt hc1.2), ?_⟩
      intro s hs hsl hsne
      have hs1 : s = 2 * j + 1 := by omega
      subst hs1
      exact le_of_lt hc2.2
    · rw [if_neg hc2] at hne ⊢
      refine ⟨le_of_lt hc1.2, ?_⟩
      intro s hs hsl hsne
      have hs2 : s = 2 * j + 2 := by omega
      subst hs2
      refine L.cle_flip _ _ ?_
      by_contra hlt
      exact hc2 ⟨hsl, by omega⟩
  · rw [if_neg hc1] at hne ⊢
    by_cases hc2 : 2 * j + 2 < h.length ∧ cmp (idx h (2 * j + 2)) (idx h j) < 0
    · rw [if_pos hc2] at hne ⊢
      refine ⟨le_of_lt hc2.2, ?_⟩
      intro s hs hsl hsne
      have hs1 : s = 2 * j + 1 := by omega
      subst hs1
      have hflip : cmp (idx h j) (idx h (2 * j + 1)) ≤ 0 := by
        refine L.cle_flip _ _ ?_
        by_contra hlt
        exact hc1 ⟨hsl, by omega⟩
      exact L.cle_trans _ _ _ (le_of_lt hc2.2) hflip
    · rw [if_neg hc2] at hne
      exact absurd rfl hne

/-- Invariant for one `bubbleDown` pass over the region of parents `≥ b`:
all edges with parent in the region are ordered except those out of the hole
`j`, and the children of `j` fit below the parent of `j`. -/
theorem bubbleDownGo_heapFrom (cmp : α → α → Int) (L : LawfulCmp cmp)
    (fuel : Nat) : ∀ (h : List α) (b j : Nat), h.length - j ≤ fuel → b ≤ j →
    (∀ c, c < h.length → 0 < c → b ≤ (c - 1) / 2 → (c - 1) / 2 ≠ j →
      cmp (idx h ((c - 1) / 2)) (idx h c) ≤ 0) →
    (∀ c, c < h.length → 0 < c → (c - 1) / 2 = j → 0 < j → b ≤ (j - 1) / 2 →
      cmp (idx h ((j - 1) / 2)) (idx h c) ≤ 0) →
    HeapFrom cmp (bubbleDownGo cmp fuel h j) b := by
  induction fuel with
  | zero =>
    intro h b j hfuel hbj hps hup
    rw [bubbleDownGo]
    intro c hc hc0 hcb
    exact hps c hc hc0 hcb (by omega)
  | succ f ih =>
    intro h b j hfuel hbj hps hup
    rw [bubbleDownGo]
    split
    · next heq =>
      have hconds := bdTarget_self_conds cmp h j heq
      intro c hc hc0 hcb
      by_cases hqj : (c - 1) / 2 = j
      · have hcj : c = 2 * j + 1 ∨ c = 2 * j + 2 := by omega
        rcases hcj with rfl | rfl
        · rw [show (2 * j + 1 - 1) / 2 = j from by omega]
          exact L.cle_flip _ _ (hconds.1 hc)
        · rw [show (2 * j + 2 - 1) / 2 = j from by omega]
          exact L.cle_flip _ _ (hconds.2 hc)
      · exact hps c hc hc0 hcb hqj
    · next hne =>
      rcases bdTarget_eq_self_or cmp h j with heq | ⟨hlt, hlen, hchild⟩
      · exact absurd heq hne
      · have hconds := bdTarget_move_conds cmp L h j hne
        have hjlen : j < h.length := by omega
        have htpar : (bdTarget cmp h j - 1) / 2 = j := by omega
        apply ih (swap h j (bdTarget cmp h j)) b (bdTarget cmp h j)
          (by rw [length_swap]; omega) (by omega)
        · intro c hc hc0 hcb hct
          rw [length_swap] at hc
          by_cases hcj : c = j
          · subst hcj
            have hq1 : (c - 1) / 2 ≠ c := by omega
            have hq2 : (c - 1) / 2 ≠ bdTarget cmp h c := by omega
            rw [idx_swap_other h c (bdTarget cmp h c) _ hq1 hq2,
              idx_swap_fst h c (bdTarget cmp h c) hjlen hlen]
            exact hup (bdTarget cmp h c) hlen (by omega) htpar (by omega) hcb
          · by_cases hctgt : c = bdTarget cmp h j
            · subst hctgt
              rw [htpar, idx_swap_fst h j (bdTarget cmp h j) hjlen hlen,
                idx_swap_snd h j (bdTarget cmp h j) hlen]
              exact hconds.1
            · rw [idx_swap_other h j (bdTarget cmp h j) c hcj hctgt]
              by_cases hqj : (c - 1) / 2 = j
              · rw [hqj, idx_swap_fst h j (bdTarget cmp h j) hjlen hlen]
                refine hconds.2 c ?_ hc hctgt
                omega
              · have hqt : (c - 1) / 2 ≠ bdTarget cmp h j := hct
                rw [idx_swap_other h j (bdTarget cmp h j) _ hqj hqt]
                exact hps c hc hc0 hcb hqj
        · intro c hc hc0 hcpar hct hcb
          rw [length_swap] at hc
          rw [htpar, idx_swap_fst h j (bdTarget cmp h j) hjlen hlen]
          have hcj : c ≠ j := by omega
          have hctgt : c ≠ bdTarget cmp h j := by omega
          rw [idx_swap_other h j (bdTarget cmp h j) c hcj hctgt]
          have h1 := hps c hc hc0 (by omega) (by omega)
          rw [hcpar] at h1
          exact h1

theorem bubbleDown_heapFrom (cmp : α → α → Int) (L : LawfulCmp cmp)
    (h : List α) (b j : Nat) (hbj : b ≤ j)
    (hps : ∀ c, c < h.length → 0 < c → b ≤ (c - 1) / 2 → (c - 1) / 2 ≠ j →
      cmp (idx h ((c - 1) / 2)) (idx h c) ≤ 0)
    (hup : ∀ c, c < h.length → 0 < c → (c - 1) / 2 = j → 0 < j → b ≤ (j - 1) / 2 →
      cmp (idx h ((j - 1) / 2)) (idx h c) ≤ 0) :
    HeapFrom cmp (bubbleDown cmp h j) b :=
  bubbleDownGo_heapFrom cmp L h.length h b j (by omega) hbj hps hup

/-! ### Heap preservation through each operation -/

theorem isHeap_nil (cmp : α → α → Int) : IsHeap cmp ([] : List α) := by
  intro c hc _ _
  simp at hc

theorem dropLast_isHeap (cmp : α → α → Int) (h : List α)
    (hh : IsHeap cmp h) : IsHeap cmp h.dropLast := by
  intro c hc hc0 _
  rw [List.length_dropLast] at hc
  rw [idx_dropLast _ _ (by omega), idx_dropLast _ _ hc]
  exact hh c (by omega) hc0 (by omega)

theorem heapifyFrom_heapFrom (cmp : α → α → Int) (L : LawfulCmp cmp) :
    ∀ (k : Nat) (h : List α), HeapFrom cmp h k →
      IsHeap cmp (heapifyFrom cmp h k) := by
  intro k
  induction k with
  | zero => intro h hpre; exact hpre
  | succ k ih =>
    intro h hpre
    rw [heapifyFrom]
    apply ih
    apply bubbleDown_heapFrom cmp L h k k (Nat.le_refl k)
    · intro c hc hc0 hcb hcj
      exact hpre c hc hc0 (by omega)
    · intro c hc hc0 hcpar hk0 hbp
      exact absurd hbp (by omega)

theorem heapify_isHeap (cmp : α → α → Int) (L : LawfulCmp cmp) (h : List α) :
    IsHeap cmp (heapify cmp h) := by
  apply heapifyFrom_heapFrom cmp L
  intro c hc hc0 hcb
  exact absurd hcb (by omega)

theorem mkQueue_isHeap (cmp : α → α → Int) (L : LawfulCmp cmp)
    (init : List α) : IsHeap cmp (mkQueue cmp init) := by
  rw [mkQueue]
  split
  · exact heapify_isHeap cmp L init
  · exact isHeap_nil cmp

theorem push_isHeap (cmp : α → α → Int) (L : LawfulCmp cmp) (h : List α)
    (v : α) (hh : IsHeap cmp h) : IsHeap cmp (push cmp h v).2 := by
  show IsHeap cmp (bubbleUp cmp (h ++ [v]) ((h ++ [v]).length - 1))
  have hlen : (h ++ [v]).length - 1 = h.length := by simp
  rw [hlen]
  apply bubbleUp_heapFrom cmp L _ _ (by simp)
  · intro c hc hc0 hcj
    simp only [List.length_append, List.length_singleton] at hc
    have hcl : c < h.length := by omega
    rw [idx_append_left _ _ _ hcl, idx_append_left _ _ _ (by omega)]
    exact hh c hcl hc0 (by omega)
  · intro c hc hc0 hpar hj0
    simp only [List.length_append, List.length_singleton] at hc
    omega

theorem pop_eq_of_one_lt (cmp : α → α → Int) (h : List α)
    (hlen : 1 < h.length) :
    pop cmp h = (some (idx h 0),
      bubbleDown cmp ((h.dropLast).set 0 (h.getLastD default)) 0) := by
  match h, hlen with
  | x :: y :: rest, _ => rfl

theorem pop_isHeap (cmp : α → α → Int) (L : LawfulCmp cmp) (h : List α)
    (hh : IsHeap cmp h) : IsHeap cmp (pop cmp h).2 := by
  match h with
  | [] => exact isHeap_nil cmp
  | [x] => exact isHeap_nil cmp
  | x :: y :: rest =>
    rw [pop_eq_of_one_lt cmp _ (by simp)]
    apply bubbleDown_heapFrom cmp L _ 0 0 (Nat.le_refl 0)
    · intro c hc hc0 hcb hcj
      rw [List.length_set, List.length_dropLast] at hc
      rw [idx_set_ne _ _ _ _ (by omega), idx_set_ne _ _ _ _ (by omega),
        idx_dropLast _ _ (by omega), idx_dropLast _ _ (by omega)]
      exact hh c (by omega) hc0 (by omega)
    · intro c hc hc0 hpar h00
      exact absurd h00 (by omega)

theorem replace_isHeap (cmp : α → α → Int) (L : LawfulCmp cmp) (h : List α)
    (v : α) (hh : IsHeap cmp h) : IsHeap cmp (replace cmp h v).2 := by
  rw [replace]
  split
  · exact push_isHeap cmp L h v hh
  · apply bubbleDown_heapFrom cmp L _ 0 0 (Nat.le_refl 0)
    · intro c hc hc0 hcb hcj
      rw [List.length_set] at hc
      rw [idx_set_ne _ _ _ _ (by omega), idx_set_ne _ _ _ _ (by omega)]
      exact hh c hc hc0 (by omega)
    · intro c hc hc0 hpar h00
      exact absurd h00 (by omega)

theorem pushPop_isHeap (cmp : α → α → Int) (L : LawfulCmp cmp) (h : List α)
    (v : α) (hh : IsHeap cmp h) : IsHeap cmp (pushPop cmp h v).2 := by
  rw [pushPop]
  split
  · exact hh
  · exact replace_isHeap cmp L h v hh

theorem merge_isHeap (cmp : α → α → Int) (L : LawfulCmp cmp)
    (h other : List α) : IsHeap cmp (merge cmp h other) :=
  heapify_isHeap cmp L (h ++ other)

/-! ### Characterization of `findIdx?` (JavaScript `indexOf`) -/

theorem idx_cons_zero (x : α) (xs : List α) : idx (x :: xs) 0 = x := rfl

theorem idx_cons_succ (x : α) (xs : List α) (n : Nat) :
    idx (x :: xs) (n + 1) = idx xs n := rfl

theorem findIdx?_go_spec (p : α → Bool) :
    ∀ (l : List α) (s i : Nat), List.findIdx? p l s = some i →
      s ≤ i ∧ i - s < l.length ∧ p (idx l (i - s)) = true ∧
        ∀ k, k < i - s → p (idx l k) = false := by
  intro l
  induction l with
  | nil =>
    intro s i hf
    rw [List.findIdx?_nil] at hf
    exact absurd hf (by simp)
  | cons x xs ih =>
    intro s i hf
    rw [List.findIdx?_cons] at hf
    split at hf
    · next hpx =>
      have hsi : s = i := by
        have := Option.some.inj hf
        omega
      subst hsi
      refine ⟨Nat.le_refl s, by simp, ?_, ?_⟩
      · rw [Nat.sub_self, idx_cons_zero]
        exact hpx
      · intro k hk
        omega
    · next hnpx =>
      obtain ⟨h1, h2, h3, h4⟩ := ih (s + 1) i hf
      refine ⟨by omega, by simp; omega, ?_, ?_⟩
      · have hi : i - s = (i - (s + 1)) + 1 := by omega
        rw [hi, idx_cons_succ]
        exact h3
      · intro k hk
        match k with
        | 0 =>
          rw [idx_cons_zero]
          simpa using hnpx
        | k + 1 =>
          rw [idx_cons_succ]
          exact h4 k (by omega)

theorem findIdx?_spec (p : α → Bool) (l : List α) (i : Nat)
    (hf : List.findIdx? p l = some i) :
    i < l.length ∧ p (idx l i) = true ∧ ∀ k, k < i → p (idx l k) = false := by
  obtain ⟨h1, h2, h3, h4⟩ := findIdx?_go_spec p l 0 i hf
  rw [Nat.sub_zero] at h2 h3
  refine ⟨h2, h3, ?_⟩
  intro k hk
  exact h4 k (by omega)

theorem remove_isHeap [DecidableEq α] (cmp : α → α → Int)
    (L : LawfulCmp cmp) (h : List α) (v : α) (hh : IsHeap cmp h) :
    IsHeap cmp (remove cmp h v).2 := by
  rw [remove]
  split
  · exact hh
  · next index hf =>
    obtain ⟨hilen, hpi, hfirst⟩ := findIdx?_spec _ h index hf
    split
    · exact dropLast_isHeap cmp h hh
    · next hne_last =>
      simp only []
      have hidx_lt : index < h.length - 1 := by omega
      have hne : h ≠ [] := by
        intro hcon
        subst hcon
        simp at hilen
      have hlast : h.getLastD default = idx h (h.length - 1) := getLastD_eq_idx h hne
      have hidx_eq : ∀ k, k < h.length - 1 → k ≠ index →
          idx ((h.dropLast).set index (h.getLastD default)) k = idx h k := by
        intro k hk hkne
        rw [idx_set_ne _ _ _ _ (Ne.symm hkne), idx_dropLast _ _ hk]
      have hidx_self :
          idx ((h.dropLast).set index (h.getLastD default)) index
            = idx h (h.length - 1) := by
        rw [idx_set_self _ _ _ (by rw [List.length_dropLast]; omega), hlast]
      split
      · next hcond =>
        obtain ⟨hpn, hlt⟩ := hcond
        have hipos : 0 < index := (getParentIndex_nonneg_iff index).mp hpn
        rw [getParentIndex_toNat index hipos, hidx_self,
          hidx_eq ((index - 1) / 2) (by omega) (by omega)] at hlt
        have e1 : cmp (idx h ((index - 1) / 2)) (idx h index) ≤ 0 :=
          hh index hilen hipos (by omega)
        apply bubbleUp_heapFrom cmp L _ index
          (by rw [List.length_set, List.length_dropLast]; omega)
        · intro c hc hc0 hcj
          rw [List.length_set, List.length_dropLast] at hc
          by_cases hq : (c - 1) / 2 = index
          · have e2 : cmp (idx h index) (idx h c) ≤ 0 := by
              have e := hh c (by omega) hc0 (by omega)
              rw [hq] at e
              exact e
            rw [hq, hidx_self, hidx_eq c hc hcj]
            exact L.cle_trans _ _ _ (le_of_lt hlt)
              (L.cle_trans _ _ _ e1 e2)
          · rw [hidx_eq c hc hcj, hidx_eq _ (by omega) hq]
            exact hh c (by omega) hc0 (by omega)
        · intro c hc hc0 hcpar hi0
          rw [List.length_set, List.length_dropLast] at hc
          have e2 : cmp (idx h index) (idx h c) ≤ 0 := by
            have e := hh c (by omega) hc0 (by omega)
            rw [hcpar] at e
            exact e
          rw [hidx_eq ((index - 1) / 2) (by omega) (by omega),
            hidx_eq c hc (by omega)]
          exact L.cle_trans _ _ _ e1 e2
      · next hncond =>
        apply bubbleDown_heapFrom cmp L _ 0 index (Nat.zero_le _)
        · intro c hc hc0 hcb hcj
          rw [List.length_set, List.length_dropLast] at hc
          by_cases hcidx : c = index
          · subst hcidx
            rw [hidx_self, hidx_eq ((c - 1) / 2) (by omega) hcj]
            refine L.cle_flip _ _ ?_
            have hpn : 0 ≤ getParentIndex c := (getParentIndex_nonneg_iff c).mpr hc0
            have hnc : ¬ cmp (idx ((h.dropLast).set c (h.getLastD default)) c)
                (idx ((h.dropLast).set c (h.getLastD default))
                  (getParentIndex c).toNat) < 0 :=
              fun hcon => hncond ⟨hpn, hcon⟩
            rw [getParentIndex_toNat c hc0, hidx_self,
              hidx_eq ((c - 1) / 2) (by omega) hcj] at hnc
            omega
          · rw [hidx_eq c hc hcidx, hidx_eq _ (by omega) hcj]
            exact hh c (by omega) hc0 (by omega)
        · intro c hc hc0 hcpar hi0 hcb
          rw [List.length_set, List.length_dropLast] at hc
          have e1 : cmp (idx h ((index - 1) / 2)) (idx h index) ≤ 0 :=
            hh index hilen hi0 (by omega)
          have e2 : cmp (idx h index) (idx h c) ≤ 0 := by
            have e := hh c (by omega) hc0 (by omega)
            rw [hcpar] at e
            exact e
          rw [hidx_eq ((index - 1) / 2) (by omega) (by omega),
            hidx_eq c hc (by omega)]
          exact L.cle_trans _ _ _ e1 e2

/-- Every heap state reachable through the public API satisfies the
heap-property invariant. -/
theorem reachable_isHeap [DecidableEq α] (cmp : α → α → Int)
    (L : LawfulCmp cmp) (h : List α) (hr : Reachable cmp h) :
    IsHeap cmp h := by
  induction hr with
  | mkQ init => exact mkQueue_isHeap cmp L init
  | pushR h v _ ih => exact push_isHeap cmp L h v ih
  | popR h _ ih => exact pop_isHeap cmp L h ih
  | removeR h v _ ih => exact remove_isHeap cmp L h v ih
  | replaceR h v _ ih => exact replace_isHeap cmp L h v ih
  | pushPopR h v _ ih => exact pushPop_isHeap cmp L h v ih
  | mergeR h other _ ih => exact merge_isHeap cmp L h other
  | clearR h _ => exact isHeap_nil cmp

/-! ### The root is an extreme element -/

theorem isHeap_root_le (cmp : α → α → Int) (L : LawfulCmp cmp) (h : List α)
    (hh : IsHeap cmp h) : ∀ i, i < h.length → cmp (idx h 0) (idx h i) ≤ 0 := by
  intro i
  induction i using Nat.strong_induction_on with
  | _ i ih =>
    intro hi
    match i with
    | 0 => exact L.cle_refl (idx h 0)
    | i + 1 =>
      have hpar := ih ((i + 1 - 1) / 2) (by omega) (by omega)
      have hedge := hh (i + 1) hi (by omega) (by omega)
      exact L.cle_trans _ _ _ hpar hedge

theorem isHeap_root_le_mem (cmp : α → α → Int) (L : LawfulCmp cmp)
    (h : List α) (hh : IsHeap cmp h) (a : α) (ha : a ∈ h) :
    cmp (idx h 0) a ≤ 0 := by
  obtain ⟨i, hi, hia⟩ := List.mem_iff_getElem.mp ha
  have := isHeap_root_le cmp L h hh i hi
  rw [idx_eq_getElem h i hi, hia] at this
  exact this

/-! ### `pop`: result, length, permutation -/

theorem pop_fst (cmp : α → α → Int) (h : List α) (hne : h ≠ []) :
    (pop cmp h).1 = some (idx h 0) := by
  match h with
  | [x] => rfl
  | x :: y :: rest => rfl

theorem length_pop (cmp : α → α → Int) (h : List α) (hne : h ≠ []) :
    (pop cmp h).2.length = h.length - 1 := by
  match h with
  | [x] => rfl
  | x :: y :: rest =>
    rw [pop_eq_of_one_lt cmp _ (by simp)]
    show (bubbleDown cmp _ 0).length = _
    rw [length_bubbleDown, List.length_set, List.length_dropLast]

theorem dropLast_append_getLastD (h : List α) (hne : h ≠ []) :
    h.dropLast ++ [h.getLastD default] = h := by
  have h1 : h.getLastD default = h.getLast hne := by
    rw [List.getLastD_eq_getLast?, List.getLast?_eq_getLast h hne]
    rfl
  rw [h1]
  exact List.dropLast_append_getLast hne

theorem perm_last_cons_dropLast (h : List α) (hne : h ≠ []) :
    (h.getLastD default :: h.dropLast).Perm h := by
  refine (List.perm_append_singleton _ _).symm.trans ?_
  rw [dropLast_append_getLastD h hne]

theorem getLastD_cons_cons (x y : α) (rest : List α) :
    (x :: y :: rest).getLastD default = (y :: rest).getLastD default := by
  rw [List.getLastD_eq_getLast?, List.getLastD_eq_getLast?,
    List.getLast?_eq_getLast (x :: y :: rest) (by simp),
    List.getLast?_eq_getLast (y :: rest) (by simp),
    List.getLast_cons (by simp)]

theorem pop_perm [DecidableEq α] (cmp : α → α → Int) (h : List α)
    (hne : h ≠ []) : (idx h 0 :: (pop cmp h).2).Perm h := by
  match h with
  | [x] => exact List.Perm.refl _
  | x :: y :: rest =>
    rw [pop_eq_of_one_lt cmp _ (by simp)]
    show (idx (x :: y :: rest) 0 :: bubbleDown cmp _ 0).Perm _
    refine (List.Perm.cons _ ((bubbleDown_perm cmp _ 0).trans ?_))
    have hset : ((x :: y :: rest).dropLast).set 0
        ((x :: y :: rest).getLastD default)
        = (x :: y :: rest).getLastD default :: (y :: rest).dropLast := rfl
    rw [hset, getLastD_cons_cons]
    exact perm_last_cons_dropLast (y :: rest) (by simp)

/-! ### The drain loop: permutation and sortedness -/

theorem drainGo_nil (cmp : α → α → Int) (fuel : Nat) :
    drainGo cmp fuel ([] : List α) = [] := by
  match fuel with
  | 0 => rfl
  | f + 1 => rfl

theorem pop_pair (cmp : α → α → Int) (h : List α) (hne : h ≠ []) :
    pop cmp h = (some (idx h 0), (pop cmp h).2) := by
  rw [← pop_fst cmp h hne]

theorem drainGo_perm [DecidableEq α] (cmp : α → α → Int) :
    ∀ (fuel : Nat) (h : List α), h.length ≤ fuel →
      (drainGo cmp fuel h).Perm h := by
  intro fuel
  induction fuel with
  | zero =>
    intro h hf
    have hnil : h = [] := List.length_eq_zero.mp (by omega)
    subst hnil
    exact List.Perm.refl _
  | succ f ih =>
    intro h hf
    by_cases hne : h = []
    · subst hne
      rw [drainGo_nil]
    · rw [drainGo, pop_pair cmp h hne]
      show (idx h 0 :: drainGo cmp f (pop cmp h).2).Perm h
      have hlen : (pop cmp h).2.length ≤ f := by
        rw [length_pop cmp h hne]
        have := List.length_pos.mpr hne
        omega
      exact (List.Perm.cons _ (ih _ hlen)).trans (pop_perm cmp h hne)

theorem drain_perm [DecidableEq α] (cmp : α → α → Int) (h : List α) :
    (drain cmp h).Perm h :=
  drainGo_perm cmp h.length h (Nat.le_refl _)

theorem drainGo_sorted [DecidableEq α] (cmp : α → α → Int) (L : LawfulCmp cmp) :
    ∀ (fuel : Nat) (h : List α), h.length ≤ fuel → IsHeap cmp h →
      List.Pairwise (fun a b => cmp a b ≤ 0) (drainGo cmp fuel h) := by
  intro fuel
  induction fuel with
  | zero =>
    intro h hf _
    have hnil : h = [] := List.length_eq_zero.mp (by omega)
    subst hnil
    exact List.Pairwise.nil
  | succ f ih =>
    intro h hf hh
    by_cases hne : h = []
    · subst hne
      rw [drainGo_nil]
      exact List.Pairwise.nil
    · rw [drainGo, pop_pair cmp h hne]
      show List.Pairwise _ (idx h 0 :: drainGo cmp f (pop cmp h).2)
      have hlen : (pop cmp h).2.length ≤ f := by
        rw [length_pop cmp h hne]
        have := List.length_pos.mpr hne
        omega
      rw [List.pairwise_cons]
      constructor
      · intro b hb
        have hb2 : b ∈ (pop cmp h).2 :=
          (drainGo_perm cmp f (pop cmp h).2 hlen).mem_iff.mp hb
        have hbh : b ∈ h :=
          (pop_perm cmp h hne).mem_iff.mp (List.mem_cons_of_mem _ hb2)
        exact isHeap_root_le_mem cmp L h hh b hbh
      · exact ih _ hlen (pop_isHeap cmp L h hh)

theorem drain_sorted [DecidableEq α] (cmp : α → α → Int) (L : LawfulCmp cmp)
    (h : List α) (hh : IsHeap cmp h) :
    List.Pairwise (fun a b => cmp a b ≤ 0) (drain cmp h) :=
  drainGo_sorted cmp L h.length h (Nat.le_refl _) hh

/-! ### Heapify and push: length and permutation -/

theorem length_heapifyFrom (cmp : α → α → Int) :
    ∀ (k : Nat) (h : List α), (heapifyFrom cmp h k).length = h.length := by
  intro k
  induction k with
  | zero => intro h; rfl
  | succ k ih =>
    intro h
    rw [heapifyFrom, ih, length_bubbleDown]

theorem length_heapify (cmp : α → α → Int) (h : List α) :
    (heapify cmp h).length = h.length := length_heapifyFrom cmp _ h

theorem heapifyFrom_perm [DecidableEq α] (cmp : α → α → Int) :
    ∀ (k : Nat) (h : List α), (heapifyFrom cmp h k).Perm h := by
  intro k
  induction k with
  | zero => intro h; exact List.Perm.refl h
  | succ k ih =>
    intro h
    rw [heapifyFrom]
    exact (ih _).trans (bubbleDown_perm cmp h k)

theorem heapify_perm [DecidableEq α] (cmp : α → α → Int) (h : List α) :
    (heapify cmp h).Perm h := heapifyFrom_perm cmp _ h

theorem length_push (cmp : α → α → Int) (h : List α) (v : α) :
    (push cmp h v).2.length = h.length + 1 := by
  show (bubbleUp cmp (h ++ [v]) ((h ++ [v]).length - 1)).length = h.length + 1
  rw [length_bubbleUp]
  simp

theorem push_fst (cmp : α → α → Int) (h : List α) (v : α) :
    (push cmp h v).1 = h.length + 1 := by
  show (bubbleUp cmp (h ++ [v]) ((h ++ [v]).length - 1)).length = h.length + 1
  rw [length_bubbleUp]
  simp

theorem push_perm [DecidableEq α] (cmp : α → α → Int) (h : List α) (v : α) :
    (push cmp h v).2.Perm (v :: h) := by
  show (bubbleUp cmp (h ++ [v]) ((h ++ [v]).length - 1)).Perm (v :: h)
  refine (bubbleUp_perm cmp _ _ (by simp)).trans ?_
  exact List.perm_append_singleton v h

/-- Pushing a whole list of values, one `push` at a time, onto a heap. -/
def pushAll (cmp : α → α → Int) (l : List α) : List α :=
  l.foldl (fun h v => (push cmp h v).2) []

theorem foldl_push_isHeap (cmp : α → α → Int) (L : LawfulCmp cmp) :
    ∀ (l : List α) (h : List α), IsHeap cmp h →
      IsHeap cmp (l.foldl (fun h v => (push cmp h v).2) h) := by
  intro l
  induction l with
  | nil => intro h hh; exact hh
  | cons x xs ih =>
    intro h hh
    rw [List.foldl_cons]
    exact ih _ (push_isHeap cmp L h x hh)

theorem pushAll_isHeap (cmp : α → α → Int) (L : LawfulCmp cmp) (l : List α) :
    IsHeap cmp (pushAll cmp l) :=
  foldl_push_isHeap cmp L l [] (isHeap_nil cmp)

theorem foldl_push_perm [DecidableEq α] (cmp : α → α → Int) :
    ∀ (l : List α) (h : List α),
      (l.foldl (fun h v => (push cmp h v).2) h).Perm (h ++ l) := by
  intro l
  induction l with
  | nil => intro h; simp
  | cons x xs ih =>
    intro h
    rw [List.foldl_cons]
    refine (ih _).trans ?_
    refine (List.Perm.append_right xs (push_perm cmp h x)).trans ?_
    exact List.perm_middle.symm

theorem pushAll_perm [DecidableEq α] (cmp : α → α → Int) (l : List α) :
    (pushAll cmp l).Perm l := by
  have := foldl_push_perm cmp l []
  simpa using this

/-! ### Further operation characterizations -/

omit [Inhabited α] in
theorem isEmpty_iff (h : List α) : isEmpty h = true ↔ h = [] := by
  rw [isEmpty, beq_iff_eq]
  exact List.length_eq_zero

theorem replace_nonempty (cmp : α → α → Int) (h : List α) (v : α)
    (hne : h ≠ []) :
    replace cmp h v = (some (idx h 0), bubbleDown cmp (h.set 0 v) 0) := by
  rw [replace, if_neg]
  intro hemp
  exact hne ((isEmpty_iff h).mp hemp)

theorem length_replace_of_ne (cmp : α → α → Int) (h : List α) (v : α)
    (hne : h ≠ []) : (replace cmp h v).2.length = h.length := by
  rw [replace_nonempty cmp h v hne]
  show (bubbleDown cmp (h.set 0 v) 0).length = h.length
  rw [length_bubbleDown, List.length_set]

theorem set_dropLast_perm [DecidableEq α] (h : List α) (index : Nat)
    (hlt : index < h.length - 1) :
    (idx h index :: (h.dropLast).set index (h.getLastD default)).Perm h := by
  have hne : h ≠ [] := by
    intro hcon
    subst hcon
    simp at hlt
  have hdl : index < h.dropLast.length := by rw [List.length_dropLast]; omega
  rw [List.perm_iff_count]
  intro b
  rw [List.count_cons, List.count_set _ _ _ _ hdl]
  conv_rhs => rw [← dropLast_append_getLastD h hne]
  rw [List.count_append, List.count_singleton]
  have hg : h.dropLast[index] = idx h index := by
    rw [← idx_eq_getElem _ _ hdl, idx_dropLast _ _ hlt]
  rw [hg]
  have hA : (idx h index == b) = true → 1 ≤ List.count b h.dropLast := by
    intro hb
    refine List.count_pos_iff.mpr ?_
    have := List.getElem_mem hdl
    rw [hg, beq_iff_eq.mp hb] at this
    exact this
  by_cases h1 : (idx h index == b) = true <;>
    by_cases h2 : (h.getLastD default == b) = true
  · have := hA h1
    rw [if_pos h1, if_pos h2]
    omega
  · have := hA h1
    rw [if_pos h1, if_neg h2]
    omega
  · rw [if_neg h1, if_pos h2]
    omega
  · rw [if_neg h1, if_neg h2]
    omega

theorem bubbleDown_eq_self (cmp : α → α → Int) (h : List α) (i : Nat)
    (ht : bdTarget cmp h i = i) : bubbleDown cmp h i = h := by
  show bubbleDownGo cmp h.length h i = h
  rcases hn : h.length with _ | n
  · rfl
  · rw [bubbleDownGo, if_pos ht]

theorem bdTarget_zero_of_tie (cmp : α → α → Int) (L : LawfulCmp cmp)
    (h : List α) (hh : IsHeap cmp h) (hne : h ≠ []) (v : α)
    (htie : cmp v (idx h 0) = 0) : bdTarget cmp (h.set 0 v) 0 = 0 := by
  have h0 : 0 < h.length := List.length_pos.mpr hne
  have hidx0 : idx (h.set 0 v) 0 = v := idx_set_self _ _ _ h0
  have hchild : ∀ c, c < h.length → (c = 1 ∨ c = 2) →
      ¬ cmp (idx (h.set 0 v) c) (idx (h.set 0 v) 0) < 0 := by
    intro c hc hc12 hcmp
    rw [hidx0, idx_set_ne _ _ _ _ (by omega)] at hcmp
    have e1 : cmp (idx h 0) (idx h c) ≤ 0 := by
      have := hh c hc (by omega) (by omega)
      rw [show (c - 1) / 2 = 0 from by omega] at this
      exact this
    have e2 : cmp v (idx h c) ≤ 0 := L.cle_trans _ _ _ (le_of_eq htie) e1
    have := L.cge_flip _ _ e2
    omega
  have hc1 : ¬(2 * 0 + 1 < (h.set 0 v).length ∧
      cmp (idx (h.set 0 v) (2 * 0 + 1)) (idx (h.set 0 v) 0) < 0) := by
    rintro ⟨hl, hcmp⟩
    rw [List.length_set] at hl
    exact hchild (2 * 0 + 1) hl (by omega) hcmp
  have hc2 : ¬(2 * 0 + 2 < (h.set 0 v).length ∧
      cmp (idx (h.set 0 v) (2 * 0 + 2)) (idx (h.set 0 v) 0) < 0) := by
    rintro ⟨hl, hcmp⟩
    rw [List.length_set] at hl
    exact hchild (2 * 0 + 2) hl (by omega) hcmp
  have hdef : bdTarget cmp (h.set 0 v) 0 =
      (if 2 * 0 + 2 < (h.set 0 v).length ∧
          cmp (idx (h.set 0 v) (2 * 0 + 2))
            (idx (h.set 0 v)
              (if 2 * 0 + 1 < (h.set 0 v).length ∧
                  cmp (idx (h.set 0 v) (2 * 0 + 1)) (idx (h.set 0 v) 0) < 0
                then 2 * 0 + 1 else 0)) < 0 then 2 * 0 + 2
        else if 2 * 0 + 1 < (h.set 0 v).length ∧
            cmp (idx (h.set 0 v) (2 * 0 + 1)) (idx (h.set 0 v) 0) < 0
          then 2 * 0 + 1 else 0) := rfl
  rw [hdef, if_neg hc1, if_neg hc2]

theorem minCmp_antisymm (a b : Int) (h1 : minCmp a b ≤ 0)
    (h2 : minCmp b a ≤ 0) : a = b := by
  simp only [minCmp] at h1 h2
  omega

theorem maxCmp_antisymm (a b : Int) (h1 : maxCmp a b ≤ 0)
    (h2 : maxCmp b a ≤ 0) : a = b := by
  simp only [maxCmp] at h1 h2
  omega

/-! ### The claims -/

/-- C1: heap-property invariant.  For every heap state reachable through the
public mutating API (construction with initial values, push, pop, remove,
replace, pushPop, merge, clear), after the call returns every valid index `i`
whose child `c ∈ {2i+1, 2i+2}` exists satisfies
`compare(elements[i], elements[c]) ≤ 0`. -/
theorem C1_heap_invariant [DecidableEq α] (cmp : α → α → Int)
    (L : LawfulCmp cmp) (h : List α) (hr : Reachable cmp h) :
    ∀ i c, (c = 2 * i + 1 ∨ c = 2 * i + 2) → c < h.length →
      cmp (idx h i) (idx h c) ≤ 0 := by
  have hh := reachable_isHeap cmp L h hr
  intro i c hc hlt
  have he := hh c hlt (by omega) (by omega)
  rw [show (c - 1) / 2 = i from by omega] at he
  exact he

/-- Witness for C1: the heap built from `[5,3,7,1,9,2]` is reachable and its
root/child edge is ordered. -/
theorem C1_heap_invariant_witness :
    minCmp (idx (mkQueue minCmp [5, 3, 7, 1, 9, 2]) 0)
      (idx (mkQueue minCmp [5, 3, 7, 1, 9, 2]) 1) ≤ 0 :=
  C1_heap_invariant minCmp lawful_minCmp _ (Reachable.mkQ [5, 3, 7, 1, 9, 2])
    0 1 (Or.inl rfl) (by decide)

/-- C2: pop order is a full sort.  Pushing any permutation of
`{9,…,1}` into a fresh heap and popping until empty yields `[1..9]` ascending
under min semantics and `[9..1]` under max semantics; and the min heap built
from `[5,3,7,1,9,2]` has `peek() = 1` and pop sequence `[1,2,3,5,7,9]`. -/
theorem C2_pop_order_full_sort (l : List Int)
    (hperm : l.Perm [9, 8, 7, 6, 5, 4, 3, 2, 1]) :
    drain minCmp (pushAll minCmp l) = [1, 2, 3, 4, 5, 6, 7, 8, 9] ∧
    drain maxCmp (pushAll maxCmp l) = [9, 8, 7, 6, 5, 4, 3, 2, 1] ∧
    peek (mkQueue minCmp [5, 3, 7, 1, 9, 2]) = some 1 ∧
    drain minCmp (mkQueue minCmp [5, 3, 7, 1, 9, 2]) = [1, 2, 3, 5, 7, 9] := by
  refine ⟨?_, ?_, by decide, by decide⟩
  · exact @List.eq_of_perm_of_sorted Int (fun a b => minCmp a b ≤ 0)
      ⟨minCmp_antisymm⟩ _ _
      ((drain_perm minCmp _).trans ((pushAll_perm minCmp l).trans
        (hperm.trans (by decide))))
      (drain_sorted minCmp lawful_minCmp _
        (pushAll_isHeap minCmp lawful_minCmp l))
      (by decide)
  · exact @List.eq_of_perm_of_sorted Int (fun a b => maxCmp a b ≤ 0)
      ⟨maxCmp_antisymm⟩ _ _
      ((drain_perm maxCmp _).trans ((pushAll_perm maxCmp l).trans hperm))
      (drain_sorted maxCmp lawful_maxCmp _
        (pushAll_isHeap maxCmp lawful_maxCmp l))
      (by decide)

/-- Witness for C2 on the identity permutation of `{9,…,1}`. -/
theorem C2_pop_order_full_sort_witness :
    drain minCmp (pushAll minCmp [9, 8, 7, 6, 5, 4, 3, 2, 1])
      = [1, 2, 3, 4, 5, 6, 7, 8, 9] :=
  (C2_pop_order_full_sort [9, 8, 7, 6, 5, 4, 3, 2, 1] (List.Perm.refl _)).1

/-- C3: empty-container queries are well-defined absence results.  `pop` and
`peek` on an empty heap return the no-value result and leave the heap
unchanged; `replace` on an empty heap inserts the value via a normal `push`
and returns no previous value; `pop` on a one-element heap removes and
returns that element, leaving the heap empty. -/
theorem C3_empty_queries (cmp : α → α → Int) (v x : α) :
    pop cmp ([] : List α) = (none, ([] : List α)) ∧
    peek ([] : List α) = none ∧
    replace cmp ([] : List α) v = (none, (push cmp ([] : List α) v).2) ∧
    (push cmp ([] : List α) v).2 = [v] ∧
    pop cmp [x] = (some x, ([] : List α)) :=
  ⟨rfl, rfl, rfl, rfl, rfl⟩

/-- C4: `toSortedArray` returns a fully order-sorted copy of the elements and
restores the backing sequence exactly, so subsequent `peek` and `size`
results are unchanged. -/
theorem C4_toSortedArray [DecidableEq α] (cmp : α → α → Int)
    (L : LawfulCmp cmp) (h : List α) (hh : IsHeap cmp h) :
    (toSortedArray cmp h).1.Perm h ∧
    List.Pairwise (fun a b => cmp a b ≤ 0) (toSortedArray cmp h).1 ∧
    (toSortedArray cmp h).2 = h ∧
    peek (toSortedArray cmp h).2 = peek h ∧
    size (toSortedArray cmp h).2 = size h :=
  ⟨drain_perm cmp h, drain_sorted cmp L h hh, rfl, rfl, rfl⟩

/-- Witness for C4 on a concrete heap. -/
theorem C4_toSortedArray_witness :
    (toSortedArray minCmp ([1, 3, 2] : List Int)).1.Perm [1, 3, 2] ∧
    (toSortedArray minCmp ([1, 3, 2] : List Int)).2 = [1, 3, 2] :=
  ⟨(C4_toSortedArray minCmp lawful_minCmp [1, 3, 2] (by decide)).1,
    (C4_toSortedArray minCmp lawful_minCmp [1, 3, 2] (by decide)).2.2.1⟩

/-- C5: `pushPop(value)` returns the value itself without mutation when the
heap is empty or the value strictly outranks the top; otherwise it performs
`replace(value)` and returns the prior top; in every case the size is
unchanged. -/
theorem C5_pushPop (cmp : α → α → Int) (h : List α) (v : α) :
    ((h = [] ∨ cmp v (idx h 0) < 0) → pushPop cmp h v = (v, h)) ∧
    (h ≠ [] → 0 ≤ cmp v (idx h 0) →
      pushPop cmp h v = (idx h 0, (replace cmp h v).2)) ∧
    size (pushPop cmp h v).2 = size h := by
  refine ⟨?_, ?_, ?_⟩
  · intro hc
    rw [pushPop, if_pos]
    rcases hc with hc | hc
    · exact Or.inl ((isEmpty_iff h).mpr hc)
    · exact Or.inr hc
  · intro hne hge
    have hnc : ¬(isEmpty h = true ∨ cmp v (idx h 0) < 0) := by
      rintro (hemp | hlt)
      · exact hne ((isEmpty_iff h).mp hemp)
      · omega
    rw [pushPop, if_neg hnc, replace_nonempty cmp h v hne]
    rfl
  · by_cases hc : isEmpty h = true ∨ cmp v (idx h 0) < 0
    · rw [pushPop, if_pos hc]
    · rw [pushPop, if_neg hc]
      have hne : h ≠ [] := fun hcon => hc (Or.inl ((isEmpty_iff h).mpr hcon))
      show (replace cmp h v).2.length = h.length
      exact length_replace_of_ne cmp h v hne

/-- Witness for C5: a value that outranks the top is returned unchanged. -/
theorem C5_pushPop_witness :
    pushPop minCmp ([1, 2] : List Int) 0 = (0, [1, 2]) ∧
    size (pushPop minCmp ([1, 2] : List Int) 0).2 = size ([1, 2] : List Int) :=
  ⟨(C5_pushPop minCmp [1, 2] 0).1 (Or.inr (by decide)),
    (C5_pushPop minCmp [1, 2] 0).2.2⟩

/-- C6: `remove(value)`.  Not found returns `false` with no mutation; first
match at the last index just drops the last slot; any found value is removed
(result is `true`, the sequence shrinks by one, and its contents are the old
contents minus one copy of the value); and `remove(3)` from the min heap
built from `[5,3,7,1,9,2]` followed by draining yields `[1,2,5,7,9]`. -/
theorem C6_remove [DecidableEq α] (cmp : α → α → Int) (h : List α) (v : α) :
    (v ∉ h → remove cmp h v = (false, h)) ∧
    (h.findIdx? (fun x => x == v) = some (h.length - 1) →
      remove cmp h v = (true, h.dropLast)) ∧
    (∀ index, h.findIdx? (fun x => x == v) = some index →
      (remove cmp h v).1 = true ∧
      (remove cmp h v).2.length = h.length - 1 ∧
      (v :: (remove cmp h v).2).Perm h) ∧
    drain minCmp (remove minCmp (mkQueue minCmp [5, 3, 7, 1, 9, 2]) 3).2
      = [1, 2, 5, 7, 9] := by
  refine ⟨?_, ?_, ?_, by decide⟩
  · intro hnm
    rw [remove]
    split
    · rfl
    · next index2 hf2 =>
      exfalso
      obtain ⟨hlt, hpv, _⟩ := findIdx?_spec _ h index2 hf2
      have hv : idx h index2 = v := beq_iff_eq.mp hpv
      have hmem : idx h index2 ∈ h := by
        rw [idx_eq_getElem h index2 hlt]
        exact List.getElem_mem hlt
      exact hnm (hv ▸ hmem)
  · intro hf
    rw [remove]
    split
    · next hnone =>
      rw [hnone] at hf
      exact absurd hf (by simp)
    · next index2 hf2 =>
      have hidx : index2 = h.length - 1 := Option.some.inj (hf2.symm.trans hf)
      rw [if_pos hidx]
  · intro index hf
    obtain ⟨hlt, hpv, _⟩ := findIdx?_spec _ h index hf
    have hv : idx h index = v := beq_iff_eq.mp hpv
    have hne : h ≠ [] := by
      intro hcon
      subst hcon
      simp at hlt
    rw [remove]
    split
    · next hnone =>
      rw [hnone] at hf
      exact absurd hf (by simp)
    · next index2 hf2 =>
      have hidx : index2 = index := Option.some.inj (hf2.symm.trans hf)
      subst hidx
      by_cases hlast : index2 = h.length - 1
      · rw [if_pos hlast]
        refine ⟨rfl, by simp, ?_⟩
        rw [← hv, hlast, ← getLastD_eq_idx h hne]
        exact perm_last_cons_dropLast h hne
      · rw [if_neg hlast]
        simp only []
        split
        · next hcond =>
          refine ⟨rfl, ?_, ?_⟩
          · show (bubbleUp cmp _ index2).length = _
            rw [length_bubbleUp, List.length_set, List.length_dropLast]
          · show (v :: bubbleUp cmp _ index2).Perm h
            rw [← hv]
            refine (List.Perm.cons _ (bubbleUp_perm cmp _ index2 ?_)).trans
              (set_dropLast_perm h index2 (by omega))
            rw [List.length_set, List.length_dropLast]
            omega
        · next hncond =>
          refine ⟨rfl, ?_, ?_⟩
          · show (bubbleDown cmp _ index2).length = _
            rw [length_bubbleDown, List.length_set, List.length_dropLast]
          · show (v :: bubbleDown cmp _ index2).Perm h
            rw [← hv]
            exact (List.Perm.cons _ (bubbleDown_perm cmp _ index2)).trans
              (set_dropLast_perm h index2 (by omega))

/-- Witness for C6: removing an absent value is a no-op returning `false`. -/
theorem C6_remove_witness :
    remove minCmp ([1, 2, 3] : List Int) 5 = (false, [1, 2, 3]) :=
  (C6_remove minCmp [1, 2, 3] 5).1 (by decide)

/-- C7: `merge(other)` appends `other`'s elements in its enumeration
(internal sequence) order and re-heapifies once; the result has size `n + m`,
satisfies the heap invariant, and draining it yields the sorted union of both
heaps' contents.  (`other` itself is a pure input and is not modified.) -/
theorem C7_merge [DecidableEq α] (cmp : α → α → Int) (L : LawfulCmp cmp)
    (h other : List α) :
    size (merge cmp h other) = size h + size other ∧
    merge cmp h other = heapify cmp (h ++ toArray other) ∧
    IsHeap cmp (merge cmp h other) ∧
    (drain cmp (merge cmp h other)).Perm (h ++ other) ∧
    List.Pairwise (fun a b => cmp a b ≤ 0) (drain cmp (merge cmp h other)) := by
  refine ⟨?_, rfl, merge_isHeap cmp L h other, ?_, ?_⟩
  · show (heapify cmp (h ++ other)).length = h.length + other.length
    rw [length_heapify, List.length_append]
  · exact (drain_perm cmp _).trans (heapify_perm cmp (h ++ other))
  · exact drain_sorted cmp L _ (merge_isHeap cmp L h other)

/-- Witness for C7 on two concrete heaps. -/
theorem C7_merge_witness :
    size (merge minCmp ([1, 5] : List Int) [2])
      = size ([1, 5] : List Int) + size ([2] : List Int) :=
  (C7_merge minCmp lawful_minCmp [1, 5] [2]).1

/-- C9: implicit tie behavior of `pushPop`.  When `compare(v, top) = 0` on a
nonempty heap, `pushPop` takes the `replace` path: the root slot becomes `v`
(the sift-down moves nothing) and the prior, equal-ranked top is returned. -/
theorem C9_pushPop_tie (cmp : α → α → Int) (L : LawfulCmp cmp) (h : List α)
    (hh : IsHeap cmp h) (hne : h ≠ []) (v : α)
    (htie : cmp v (idx h 0) = 0) :
    pushPop cmp h v = (idx h 0, h.set 0 v) := by
  have hnc : ¬(isEmpty h = true ∨ cmp v (idx h 0) < 0) := by
    rintro (hemp | hlt)
    · exact hne ((isEmpty_iff h).mp hemp)
    · omega
  rw [pushPop, if_neg hnc, replace_nonempty cmp h v hne,
    bubbleDown_eq_self cmp _ 0 (bdTarget_zero_of_tie cmp L h hh hne v htie)]
  rfl

/-- Witness for C9: pushing a tie of the root mutates the root slot. -/
theorem C9_pushPop_tie_witness :
    pushPop minCmp ([1, 2] : List Int) 1 = (1, [1, 2]) :=
  C9_pushPop_tie minCmp lawful_minCmp [1, 2] (by decide) (by simp) 1 (by decide)

/-- C10: implicit root-removal edge case.  When `remove`'s first match is at
index 0 of a heap with at least two elements, `getParentIndex 0 = -1` makes
the parent test vacuous, the corrective pass is the bubble-down from the
root, and the heap property holds after the call. -/
theorem C10_remove_root [DecidableEq α] (cmp : α → α → Int)
    (L : LawfulCmp cmp) (h : List α) (v : α) (hh : IsHeap cmp h)
    (hlen : 2 ≤ h.length)
    (hf : h.findIdx? (fun x => x == v) = some 0) :
    getParentIndex 0 = -1 ∧
    remove cmp h v =
      (true, bubbleDown cmp ((h.dropLast).set 0 (h.getLastD default)) 0) ∧
    IsHeap cmp (remove cmp h v).2 := by
  refine ⟨getParentIndex_zero, ?_, remove_isHeap cmp L h v hh⟩
  rw [remove]
  split
  · next hnone =>
    rw [hnone] at hf
    exact absurd hf (by simp)
  · next index2 hf2 =>
    have hidx : index2 = 0 := Option.some.inj (hf2.symm.trans hf)
    subst hidx
    rw [if_neg (by omega)]
    simp only []
    rw [if_neg]
    rintro ⟨hge, _⟩
    rw [getParentIndex_zero] at hge
    omega

/-- Witness for C10 at a concrete three-element min heap. -/
theorem C10_remove_root_witness :
    remove minCmp ([1, 2, 3] : List Int) 1 =
      (true, bubbleDown minCmp
        ((([1, 2, 3] : List Int).dropLast).set 0
          (([1, 2, 3] : List Int).getLastD default)) 0) :=
  (C10_remove_root minCmp lawful_minCmp [1, 2, 3] 1 (by decide) (by decide)
    (by decide)).2.1

end PQ
